import Mathlib

/-!
Shallow embedding of `src/productquantizer.cc` (fastText product quantizer).

Conventions of the embedding:
* `real` (a 4-byte float in the C++ code) is modelled as `ℚ`; all claims
  settled here are structural (addressing, control flow, counts, exact
  algebraic identities), not about rounding.
* Flat buffers (`const real*` / `real*`) are modelled as total functions
  `ℕ → ℚ`; the centroid table owned by the quantizer, which is also
  serialized, is a `List ℚ`.
* `int32_t`/`size_t` quantities are modelled as `ℕ` (every claim constrains
  them to the nonnegative range where the C++ arithmetic agrees with `ℕ`
  arithmetic).
* The Mersenne-twister RNG is abstracted: each RNG use consumes one tick of
  a position counter; `std::shuffle` calls are served by an oracle
  `shuf : ℕ → List ℕ → List ℕ` (call position ↦ permutation action, which
  the C++ standard leaves implementation-defined) and
  `std::uniform_real_distribution<>(0,1)` calls by an oracle `u : ℕ → ℚ`
  (theorems hypothesize `0 ≤ u t`, and `u t < 1` where needed).
* The open-ended donor-search `while` loop in `MStep` is modelled with
  explicit fuel; exhausted fuel propagates as `Option.none`.
-/

set_option maxRecDepth 100000

/-- Modelled from the spec: `ksub_` (`centroids_per_subspace`), a constant of
the class header (the header is not under `src/`); the spec fixes it at 256,
sized so a code fits in one byte. -/
def ksub : ℕ := 256

/-- State of a `ProductQuantizer` object.  `rng` abstracts the Mersenne
twister state as a position into the oracle streams.  `eps`, `niter`,
`maxpoints` model the header constants `eps_`, `niter_`, `max_points_`
(their numeric values are not under `src/`; the spec only calls them a
small perturbation epsilon, an iteration count and a sampling cap, so they
are carried as fields fixed at construction). -/
structure PQ where
  dim : ℕ
  nsubq : ℕ
  dsub : ℕ
  lastdsub : ℕ
  centroids : List ℚ
  rng : ℕ
  eps : ℚ
  niter : ℕ
  maxpoints : ℕ
deriving DecidableEq

/-- `ProductQuantizer::ProductQuantizer(int32_t dim, int32_t dsub)`:
`nsubq_ = dim / dsub`, `lastdsub_ = dim % dsub`, and if the remainder is
nonzero `lastdsub_` keeps it while `nsubq_` is incremented, else
`lastdsub_ = dsub`.  The centroid table is value-initialized to
`dim * ksub_` zeros, and the RNG is seeded. -/
def ProductQuantizer.make (dim dsub : ℕ) (seed : ℕ) (eps : ℚ)
    (niter maxpoints : ℕ) : PQ :=
  { dim := dim
    nsubq := if dim % dsub = 0 then dim / dsub else dim / dsub + 1
    dsub := dsub
    lastdsub := if dim % dsub = 0 then dsub else dim % dsub
    centroids := List.replicate (dim * ksub) 0
    rng := seed
    eps := eps
    niter := niter
    maxpoints := maxpoints }

/-- `const real* ProductQuantizer::get_centroids(int32_t m, uint8_t i) const`:
the returned pointer is modelled as the offset into the flat centroid table. -/
def get_centroids (pq : PQ) (m i : ℕ) : ℕ :=
  if m = pq.nsubq - 1 then m * ksub * pq.dsub + i * pq.lastdsub
  else (m * ksub + i) * pq.dsub

/-- `real* ProductQuantizer::get_centroids(int32_t m, uint8_t i)` (the
mutable overload; its body is identical to the `const` one). -/
def get_centroids_mut (pq : PQ) (m i : ℕ) : ℕ :=
  if m = pq.nsubq - 1 then m * ksub * pq.dsub + i * pq.lastdsub
  else (m * ksub + i) * pq.dsub

/-- Width of subspace `m`'s centroids: the running `d` in the C++ loops,
switched to `lastdsub_` when `m == nsubq_ - 1`. -/
def subWidth (pq : PQ) (m : ℕ) : ℕ :=
  if m = pq.nsubq - 1 then pq.lastdsub else pq.dsub

/-- Read the centroid table at a flat offset (out-of-range reads, which the
C++ never performs in the claims' scope, default to 0). -/
def centAt (pq : PQ) (i : ℕ) : ℚ :=
  pq.centroids.getD i 0

/-- `real distL2(const real* x, const real* y, int32_t d)`: squared
Euclidean distance over `d` coordinates. -/
def distL2 (x y : ℕ → ℚ) (d : ℕ) : ℚ :=
  ∑ i ∈ Finset.range d, (x i - y i) * (x i - y i)

/-- The scan of `ProductQuantizer::assign_centroid`: after considering
candidates `0..j`, returns `(code, dis)`; the comparison is strict
(`disij < dis`), so ties keep the earlier index. -/
def assignLoop (f : ℕ → ℚ) : ℕ → ℕ × ℚ
  | 0 => (0, f 0)
  | j + 1 =>
    let p := assignLoop f j
    if f (j + 1) < p.2 then (j + 1, f (j + 1)) else p

/-- `real ProductQuantizer::assign_centroid(const real* x, const real* c0,
uint8_t* code, int32_t d) const`: scans the `ksub_` candidate centroids
spaced `d` apart from `c0`; returns `(code[0], dis)`. -/
def assign_centroid (x c : ℕ → ℚ) (d : ℕ) : ℕ × ℚ :=
  assignLoop (fun j => distL2 x (fun i => c (j * d + i)) d) (ksub - 1)

/-- `ProductQuantizer::Estep`: per-point codes (point `i` lives at offset
`i*d` of `x`). -/
def Estep (x c : ℕ → ℚ) (d : ℕ) : ℕ → ℕ :=
  fun i => (assign_centroid (fun r => x (i * d + r)) c d).1

/-- `ProductQuantizer::compute_code(const real* x, uint8_t* code) const`:
byte `m` of the code, assigned against the centroid block of subspace `m`
(base `get_centroids(m, 0)`, spacing/width `d`). -/
def compute_code (pq : PQ) (x : ℕ → ℚ) : ℕ → ℕ :=
  fun m =>
    (assign_centroid (fun r => x (m * pq.dsub + r))
      (fun r => centAt pq (get_centroids pq m 0 + r)) (subWidth pq m)).1

/-- `real ProductQuantizer::mulcode(const Vector& x, const uint8_t* codes,
int32_t t, real alpha) const`: accumulates, subspace by subspace, the dot
product of `x`'s slice against the centroid selected by byte `m` of code
`t`, then multiplies by `alpha`. -/
def mulcode (pq : PQ) (x : ℕ → ℚ) (codes : ℕ → ℕ) (t : ℕ) (alpha : ℚ) : ℚ :=
  ((List.range pq.nsubq).foldl (fun res m =>
    (List.range (subWidth pq m)).foldl
      (fun r j =>
        r + x (m * pq.dsub + j) *
          centAt pq (get_centroids pq m (codes (pq.nsubq * t + m)) + j))
      res) 0) * alpha

/-- `int32_t sign = (j % 2) * 2 - 1` of the reseed perturbation, as a
rational: `-1` for even `j`, `+1` for odd `j`. -/
def pSign (j : ℕ) : ℚ :=
  ((j % 2 : ℕ) : ℚ) * 2 - 1

/-- `memcpy(centroids + k*d, centroids + m*d, sizeof(real)*d)`: copy the
donor block `m` over the empty block `k`. -/
def reseedCopy (d k m : ℕ) (c : ℕ → ℚ) : ℕ → ℚ :=
  fun i => if k * d ≤ i ∧ i < k * d + d then c (m * d + (i - k * d)) else c i

/-- One iteration `j` of the perturbation loop:
`centroids[k*d+j] += sign*eps_; centroids[m*d+j] -= sign*eps_` (the two
writes happen in this order, which matters only when `k = m`). -/
def perturbOne (eps : ℚ) (d k m : ℕ) (c : ℕ → ℚ) (j : ℕ) : ℕ → ℚ :=
  let c1 := Function.update c (k * d + j) (c (k * d + j) + pSign j * eps)
  Function.update c1 (m * d + j) (c1 (m * d + j) - pSign j * eps)

/-- The empty-cluster split of `MStep` (copy the donor centroid, then the
perturbation loop over all `d` coordinates). -/
def reseedSplit (eps : ℚ) (d k m : ℕ) (c : ℕ → ℚ) : ℕ → ℚ :=
  (List.range d).foldl (perturbOne eps d k m) (reseedCopy d k m c)

/-- The donor-search loop
`while (runiform(rng) * (n - ksub_) >= nelts[m] - 1) m = (m + 1) % ksub_;`
with a fresh uniform draw `u pos` each test; modelled with fuel.  On exit
returns the donor and the advanced draw position.  The C++ comparison is
between signed/real quantities, hence the casts to `ℚ`. -/
def findDonor (u : ℕ → ℚ) (ne : ℕ → ℕ) (n : ℕ) :
    ℕ → ℕ → ℕ → Option (ℕ × ℕ)
  | 0, _, _ => none
  | fuel + 1, m, pos =>
    if ((ne m : ℚ) - 1) ≤ u pos * ((n : ℚ) - (ksub : ℚ)) then
      findDonor u ne n fuel ((m + 1) % ksub) (pos + 1)
    else
      some (m, pos + 1)

/-- `nelts[k] = nelts[m] / 2; nelts[m] -= nelts[k];` (sequential, so the
`k = m` degenerate case is modelled exactly as the C++ executes it). -/
def neUpdate (ne : ℕ → ℕ) (k m : ℕ) : ℕ → ℕ :=
  let ne1 := Function.update ne k (ne m / 2)
  Function.update ne1 m (ne1 m - ne1 k)

/-- Body of the reseed loop of `MStep` for one cluster index `k`: nothing
happens unless `nelts[k] == 0`; otherwise a donor is searched (consuming
draws) and the split is applied to centroids and counts. -/
def reseedStep (eps : ℚ) (u : ℕ → ℚ) (n d fuel : ℕ)
    (st : (ℕ → ℚ) × (ℕ → ℕ) × ℕ) (k : ℕ) : Option ((ℕ → ℚ) × (ℕ → ℕ) × ℕ) :=
  if st.2.1 k = 0 then
    match findDonor u st.2.1 n fuel 0 st.2.2 with
    | none => none
    | some (m, pos') => some (reseedSplit eps d k m st.1, neUpdate st.2.1 k m, pos')
  else
    some st

/-- The reseed pass of `MStep` over clusters `0, …, p-1` (the full pass has
`p = ksub_`). -/
def reseedPass (eps : ℚ) (u : ℕ → ℚ) (n d fuel : ℕ)
    (st : (ℕ → ℚ) × (ℕ → ℕ) × ℕ) (p : ℕ) : Option ((ℕ → ℚ) × (ℕ → ℕ) × ℕ) :=
  (List.range p).foldlM (reseedStep eps u n d fuel) st

/-- `memset(centroids, 0, sizeof(real) * d * ksub_)`. -/
def mstepClear (c : ℕ → ℚ) (d : ℕ) : ℕ → ℚ :=
  fun i => if i < d * ksub then 0 else c i

/-- Accumulation phase of `MStep` over the first `i` points: adds point
`i`'s coordinates into the block of its code's cluster and counts it. -/
def mstepAccum (x : ℕ → ℚ) (codes : ℕ → ℕ) (d : ℕ) (c0 : ℕ → ℚ) :
    ℕ → ((ℕ → ℚ) × (ℕ → ℕ))
  | 0 => (c0, fun _ => 0)
  | i + 1 =>
    let st := mstepAccum x codes d c0 i
    let k := codes i
    (fun idx =>
        if k * d ≤ idx ∧ idx < k * d + d then st.1 idx + x (i * d + (idx - k * d))
        else st.1 idx,
      Function.update st.2 k (st.2 k + 1))

/-- Mean phase of `MStep`: each coordinate of cluster `k = idx / d` is
divided by `nelts[k]` only when that count is nonzero. -/
def mstepMeans (c : ℕ → ℚ) (ne : ℕ → ℕ) (d : ℕ) : ℕ → ℚ :=
  fun idx =>
    if idx < ksub * d ∧ ne (idx / d) ≠ 0 then c idx / ((ne (idx / d) : ℚ))
    else c idx

/-- `void ProductQuantizer::MStep(const real* x0, real* centroids,
const uint8_t* codes, int32_t d, int32_t n)`: clear, accumulate sums and
counts, divide non-empty clusters, then the empty-cluster reseed pass.
Returns the centroid buffer, the recorded counts and the advanced draw
position (`none` when the modelled donor-search fuel runs out). -/
def MStep (eps : ℚ) (u : ℕ → ℚ) (fuel : ℕ) (x c : ℕ → ℚ) (codes : ℕ → ℕ)
    (d n pos : ℕ) : Option ((ℕ → ℚ) × (ℕ → ℕ) × ℕ) :=
  let st := mstepAccum x codes d (mstepClear c d) n
  reseedPass eps u n d fuel (mstepMeans st.1 st.2 d, st.2, pos) ksub

/-- The EM loop of `ProductQuantizer::kmeans`: `niter` rounds of
`Estep; MStep` threading the centroid buffer and the draw position. -/
def emIter (eps : ℚ) (u : ℕ → ℚ) (x : ℕ → ℚ) (d n fuel : ℕ) :
    ℕ → ((ℕ → ℚ) × ℕ) → Option ((ℕ → ℚ) × ℕ)
  | 0, st => some st
  | t + 1, st =>
    match MStep eps u fuel x st.1 (Estep x st.1 d) d n st.2 with
    | none => none
    | some (c', _, pos') => emIter eps u x d n fuel t (c', pos')

/-- `void ProductQuantizer::kmeans(const real* x, real* c, int32_t n,
int32_t d)`: shuffle a permutation of `[0,n)` (one RNG tick), seed the
`ksub_` centroids from the first `ksub_` permuted points, then run the EM
loop `niter_` times. -/
def kmeans (eps : ℚ) (niter : ℕ) (u : ℕ → ℚ) (shuf : ℕ → List ℕ → List ℕ)
    (x c0 : ℕ → ℚ) (n d fuel pos : ℕ) : Option ((ℕ → ℚ) × ℕ) :=
  let perm := shuf pos (List.range n)
  let c1 : ℕ → ℚ := fun idx =>
    if idx < ksub * d then x ((perm.getD (idx / d) 0) * d + idx % d)
    else c0 idx
  emIter eps u x d n fuel niter (c1, pos + 1)

/-- Write the flat kmeans result back into the centroid table region
`[base, base+len)` (the C++ kmeans mutates the table in place through the
pointer `get_centroids(m, 0)`). -/
def writeRegion (l : List ℚ) (base len : ℕ) (f : ℕ → ℚ) : List ℚ :=
  (List.range l.length).map
    (fun i => if base ≤ i ∧ i < base + len then f (i - base) else l.getD i 0)

/-- The per-subspace loop of `ProductQuantizer::train`: for each `m`,
reshuffle the permutation when `np != n` (one RNG tick), gather the `np`
permuted points' `d`-wide slices into the scratch buffer `xslice`, and run
kmeans into subspace `m`'s region of the table. -/
def trainLoop (pq : PQ) (n np : ℕ) (x : ℕ → ℚ) (shuf : ℕ → List ℕ → List ℕ)
    (u : ℕ → ℚ) (fuel : ℕ) :
    List ℕ → (List ℚ × List ℕ × ℕ) → Option (List ℚ × List ℕ × ℕ)
  | [], st => some st
  | m :: ms, (cents, perm, pos) =>
    let d := subWidth pq m
    let pp := if np ≠ n then (shuf pos perm, pos + 1) else (perm, pos)
    let xslice : ℕ → ℚ := fun idx =>
      if idx < np * d then
        x ((pp.1.getD (idx / d) 0) * pq.dim + m * pq.dsub + idx % d)
      else 0
    let c0 : ℕ → ℚ := fun r => cents.getD (get_centroids pq m 0 + r) 0
    match kmeans pq.eps pq.niter u shuf xslice c0 np d fuel pp.2 with
    | none => none
    | some (cfin, pos'') =>
      trainLoop pq n np x shuf u fuel ms
        (writeRegion cents (get_centroids pq m 0) (ksub * d) cfin, pp.1, pos'')

/-- Outcome of a `train` call: normal return, the
`std::invalid_argument` throw, or modelled fuel exhaustion (the C++ donor
search looping without an accepted draw). -/
inductive TStatus
  | ok
  | err (msg : String)
  | outOfFuel
deriving DecidableEq

/-- The exact message of the `std::invalid_argument` thrown by `train`. -/
def trainErrMsg : String :=
  "Matrix too small for quantization, must have at least " ++
    toString ksub ++ " rows"

/-- `void ProductQuantizer::train(int32_t n, const real* x)`: the
insufficient-data guard is checked before anything else; on the throw the
object is returned unchanged.  Otherwise `np = min(n, max_points_)` and the
per-subspace loop runs; on normal return the table holds the new centroids
and the RNG has advanced. -/
def train (pq : PQ) (n : ℕ) (x : ℕ → ℚ) (shuf : ℕ → List ℕ → List ℕ)
    (u : ℕ → ℚ) (fuel : ℕ) : PQ × TStatus :=
  if n < ksub then (pq, TStatus.err trainErrMsg)
  else
    match trainLoop pq n (min n pq.maxpoints) x shuf u fuel
        (List.range pq.nsubq) (pq.centroids, List.range n, 0) with
    | none => (pq, TStatus.outOfFuel)
    | some (cents, _, pos) =>
      ({ pq with centroids := cents, rng := pq.rng + pos }, TStatus.ok)

/-- One 4-byte unit of the byte stream: an `int32` field or a `real`
value.  (The byte level is not modelled; a type-mismatched read, which the
claims never exercise, is treated as a failed read.) -/
inductive Word
  | wi (z : ℕ)
  | wr (q : ℚ)
deriving DecidableEq

/-- `in.read((char*)&v, sizeof(int32_t))` into a field holding `old`: on a
failed stream (or exhausted/mismatched input) the field keeps its old value
and the fail state is set, as with `std::istream`. -/
def readI (s : List Word) (old : ℕ) (fail : Bool) : ℕ × List Word × Bool :=
  if fail then (old, s, true)
  else
    match s with
    | Word.wi z :: r => (z, r, false)
    | _ => (old, s, true)

/-- `in.read((char*)&v, sizeof(real))`, analogous to `readI`. -/
def readR (s : List Word) (old : ℚ) (fail : Bool) : ℚ × List Word × Bool :=
  if fail then (old, s, true)
  else
    match s with
    | Word.wr q :: r => (q, r, false)
    | _ => (old, s, true)

/-- `centroids_.resize(dim_ * ksub_)`: keep the prefix, zero-fill any
extension. -/
def resizeList (l : List ℚ) (n : ℕ) : List ℚ :=
  List.take n l ++ List.replicate (n - l.length) 0

/-- The element-wise read loop of `load`
(`for i < centroids_.size(): in.read((char*)&centroids_[i], sizeof(real))`):
threads the stream and fail state through the resized table. -/
def loadReals : List ℚ → List Word → Bool → List ℚ × List Word × Bool
  | [], s, fail => ([], s, fail)
  | q :: qs, s, fail =>
    let r1 := readR s q fail
    let rest := loadReals qs r1.2.1 r1.2.2
    (r1.1 :: rest.1, rest.2.1, rest.2.2)

/-- `void ProductQuantizer::save(std::ostream& out) const`: the four shape
fields, then the raw centroid table. -/
def save (pq : PQ) : List Word :=
  [Word.wi pq.dim, Word.wi pq.nsubq, Word.wi pq.dsub, Word.wi pq.lastdsub] ++
    pq.centroids.map Word.wr

/-- `void ProductQuantizer::load(std::istream& in)`: read the four shape
fields, resize the table to `dim_ * ksub_`, then read that many reals.
Returns the new object state, the unconsumed stream and the stream's fail
state.  No validation is performed anywhere. -/
def load (pq : PQ) (s : List Word) : PQ × List Word × Bool :=
  let rdim := readI s pq.dim false
  let rnsubq := readI rdim.2.1 pq.nsubq rdim.2.2
  let rdsub := readI rnsubq.2.1 pq.dsub rnsubq.2.2
  let rlast := readI rdsub.2.1 pq.lastdsub rdsub.2.2
  let resized := resizeList pq.centroids (rdim.1 * ksub)
  let rc := loadReals resized rlast.2.1 rlast.2.2
  ({ pq with
      dim := rdim.1
      nsubq := rnsubq.1
      dsub := rdsub.1
      lastdsub := rlast.1
      centroids := rc.1 },
    rc.2.1, rc.2.2)

/-- Squared L2 distance between `x`'s `m`-th slice and centroid `i` of
subspace `m` (the quantity `assign_centroid` scans inside
`compute_code`), addressed through `get_centroids`. -/
def subspaceDist (pq : PQ) (x : ℕ → ℚ) (m i : ℕ) : ℚ :=
  distL2 (fun r => x (m * pq.dsub + r))
    (fun r => centAt pq (get_centroids pq m i + r)) (subWidth pq m)

/-- Concrete recorded counts refuting universal termination of the donor
search: cluster 0 is empty, cluster 1 holds 4 points, every other cluster
holds 2, so the counts sum to `n = 512 ≥ ksub_` yet every cluster satisfies
the continue-condition for the constant draw `1/2`. -/
def neCx : ℕ → ℕ :=
  fun m => if m = 0 then 0 else if m = 1 then 4 else 2

/-- Concrete recorded counts for a terminating donor search at
`n = ksub_`: cluster 0 empty, cluster 1 holds 2 points, the rest hold 1. -/
def neW : ℕ → ℕ :=
  fun m => if m = 0 then 0 else if m = 1 then 2 else 1

/-! ### Helper lemmas -/

theorem emIter_zero (eps : ℚ) (u x : ℕ → ℚ) (d n fuel : ℕ)
    (st : (ℕ → ℚ) × ℕ) : emIter eps u x d n fuel 0 st = some st := rfl

theorem kmeans_isSome_of_niter_zero (eps : ℚ) (u : ℕ → ℚ)
    (shuf : ℕ → List ℕ → List ℕ) (x c0 : ℕ → ℚ) (n d fuel pos : ℕ) :
    (kmeans eps 0 u shuf x c0 n d fuel pos).isSome := by
  simp [kmeans, emIter]

theorem trainLoop_isSome_of_niter_zero (pq : PQ) (h : pq.niter = 0)
    (n np : ℕ) (x : ℕ → ℚ) (shuf : ℕ → List ℕ → List ℕ) (u : ℕ → ℚ)
    (fuel : ℕ) :
    ∀ (ms : List ℕ) (st : List ℚ × List ℕ × ℕ),
      (trainLoop pq n np x shuf u fuel ms st).isSome := by
  intro ms
  induction ms with
  | nil => intro st; simp [trainLoop]
  | cons m ms ih =>
    intro st
    obtain ⟨cents, perm, pos⟩ := st
    simp only [trainLoop, h, kmeans, emIter]
    exact ih _

/-- C3: the insufficient-data guard of `train`.  The error status is
returned exactly when `n < ksub_`; in that case the guard fires before any
clustering, so the returned state is the untouched input state; and when
the guard passes, `train` never reports the error (and, for instance with
`niter_ = 0` EM iterations, returns normally, covering the
`n = ksub_` boundary success). -/
theorem train_insufficient_data_guard (pq : PQ) (n : ℕ) (x : ℕ → ℚ)
    (shuf : ℕ → List ℕ → List ℕ) (u : ℕ → ℚ) (fuel : ℕ) :
    ((train pq n x shuf u fuel).2 = TStatus.err trainErrMsg ↔ n < ksub) ∧
    (n < ksub → (train pq n x shuf u fuel).1 = pq) ∧
    (pq.niter = 0 → ksub ≤ n → (train pq n x shuf u fuel).2 = TStatus.ok) := by
  by_cases hn : n < ksub
  · refine ⟨⟨fun _ => hn, fun _ => ?_⟩, fun _ => ?_, fun _ hle => ?_⟩
    · simp [train, hn]
    · simp [train, hn]
    · omega
  · have hs := trainLoop_isSome_of_niter_zero pq
    refine ⟨⟨fun h => ?_, fun h => absurd h hn⟩, fun h => absurd h hn, fun h0 _ => ?_⟩
    · rcases heq : trainLoop pq n (min n pq.maxpoints) x shuf u fuel
          (List.range pq.nsubq) (pq.centroids, List.range n, 0) with _ | st
      · simp [train, hn, heq] at h
      · obtain ⟨cents, perm, pos⟩ := st
        simp [train, hn, heq] at h
    · rcases heq : trainLoop pq n (min n pq.maxpoints) x shuf u fuel
          (List.range pq.nsubq) (pq.centroids, List.range n, 0) with _ | st
      · have := hs h0 n (min n pq.maxpoints) x shuf u fuel
          (List.range pq.nsubq) (pq.centroids, List.range n, 0)
        rw [heq] at this
        simp at this
      · obtain ⟨cents, perm, pos⟩ := st
        simp [train, hn, heq]

/-- Witness for C3 at concrete inputs: `n = 255` fails with the exact
message and leaves the state untouched; `n = 256` returns `ok`. -/
theorem train_insufficient_data_guard_witness :
    (train (ProductQuantizer.make 1 1 0 0 0 256) 255 (fun _ => 0)
        (fun _ l => l) (fun _ => 0) 1).2 = TStatus.err trainErrMsg ∧
    (train (ProductQuantizer.make 1 1 0 0 0 256) 255 (fun _ => 0)
        (fun _ l => l) (fun _ => 0) 1).1 = ProductQuantizer.make 1 1 0 0 0 256 ∧
    (train (ProductQuantizer.make 1 1 0 0 0 256) 256 (fun _ => 0)
        (fun _ l => l) (fun _ => 0) 1).2 = TStatus.ok :=
  ⟨(train_insufficient_data_guard (ProductQuantizer.make 1 1 0 0 0 256) 255
      (fun _ => 0) (fun _ l => l) (fun _ => 0) 1).1.mpr (by decide),
   (train_insufficient_data_guard (ProductQuantizer.make 1 1 0 0 0 256) 255
      (fun _ => 0) (fun _ l => l) (fun _ => 0) 1).2.1 (by decide),
   (train_insufficient_data_guard (ProductQuantizer.make 1 1 0 0 0 256) 256
      (fun _ => 0) (fun _ l => l) (fun _ => 0) 1).2.2 rfl (by decide)⟩

theorem resizeList_length (l : List ℚ) (n : ℕ) : (resizeList l n).length = n := by
  simp [resizeList]
  omega

theorem loadReals_exact (qs vals : List ℚ) (rest : List Word)
    (h : qs.length = vals.length) :
    loadReals qs (vals.map Word.wr ++ rest) false = (vals, rest, false) := by
  induction qs generalizing vals rest with
  | nil =>
    cases vals with
    | nil => simp [loadReals]
    | cons v vs => simp at h
  | cons q qs ih =>
    cases vals with
    | nil => simp at h
    | cons v vs =>
      simp only [List.length_cons, Nat.succ.injEq] at h
      simp [loadReals, readR, ih vs rest h]

/-- C4: `save` followed by `load` into any instance `pq'` (fresh or the
same) reproduces `dim`, `nsubq`, `dsub`, `lastdsub` and the centroid table
value-for-value (bit-for-bit at the `Word` level of the model), consumes
exactly the saved words, sets no stream failure, and transfers neither the
RNG state nor the training constants (`eps_`, `niter_`, `max_points_`),
which keep the receiving instance's values. -/
theorem save_load_roundtrip (pq pq' : PQ) (rest : List Word)
    (hlen : pq.centroids.length = pq.dim * ksub) :
    (load pq' (save pq ++ rest)).1.dim = pq.dim ∧
    (load pq' (save pq ++ rest)).1.nsubq = pq.nsubq ∧
    (load pq' (save pq ++ rest)).1.dsub = pq.dsub ∧
    (load pq' (save pq ++ rest)).1.lastdsub = pq.lastdsub ∧
    (load pq' (save pq ++ rest)).1.centroids = pq.centroids ∧
    (load pq' (save pq ++ rest)).1.centroids.length = pq.dim * ksub ∧
    (load pq' (save pq ++ rest)).2.1 = rest ∧
    (load pq' (save pq ++ rest)).2.2 = false ∧
    (load pq' (save pq ++ rest)).1.rng = pq'.rng ∧
    (load pq' (save pq ++ rest)).1.eps = pq'.eps ∧
    (load pq' (save pq ++ rest)).1.niter = pq'.niter ∧
    (load pq' (save pq ++ rest)).1.maxpoints = pq'.maxpoints := by
  have hres : (resizeList pq'.centroids (pq.dim * ksub)).length
      = pq.centroids.length := by
    rw [resizeList_length, hlen]
  have hl := loadReals_exact (resizeList pq'.centroids (pq.dim * ksub))
    pq.centroids rest hres
  simp [load, save, readI, hl, hlen]

/-- Witness for C4: a concrete trained-shape quantizer round-trips through
a differently-configured receiving instance. -/
theorem save_load_roundtrip_witness :
    (ProductQuantizer.make 1 1 5 2 3 4).centroids.length = 1 * ksub ∧
    (load (ProductQuantizer.make 2 2 7 8 9 10)
        (save (ProductQuantizer.make 1 1 5 2 3 4) ++ [])).1.dim = 1 :=
  ⟨by decide,
   (save_load_roundtrip (ProductQuantizer.make 1 1 5 2 3 4)
      (ProductQuantizer.make 2 2 7 8 9 10) [] (by decide)).1⟩

theorem loadReals_failed (qs : List ℚ) (s : List Word) :
    loadReals qs s true = (qs, s, true) := by
  induction qs with
  | nil => simp [loadReals]
  | cons q qs ih => simp [loadReals, readR, ih]

/-- C5 (counterexample to the claim as stated): a stream whose metadata is
the non-positive dimension `dim = 0` — a "nonsensical table size" in the
claim's words — is accepted by `load` with no error surfaced: the returned
stream-failure state is `false`. -/
theorem load_zero_dim_no_error_counterexample :
    ¬ ((load (ProductQuantizer.make 1 1 0 0 0 0)
          [Word.wi 0, Word.wi 1, Word.wi 1, Word.wi 1]).2.2 = true) := by
  decide

/-- C5 (amended): `load` itself never raises an error and performs no
metadata validation.  A truncated stream is reflected only in the stream's
failure state: an empty stream leaves every shape field at its prior value
with the failure state set, and a header-only stream whose `dim` is
positive fails while reading the reals.  Metadata yielding a zero-size
table (`dim = 0`, a non-positive dimension) is silently accepted: the
failure state stays clear and the table becomes empty. -/
theorem load_no_validation_amended (pq : PQ) (a b c d1 : ℕ) (rest : List Word) :
    ((load pq (Word.wi 0 :: Word.wi a :: Word.wi b :: Word.wi c :: rest)).2.2
        = false ∧
      (load pq (Word.wi 0 :: Word.wi a :: Word.wi b :: Word.wi c :: rest)).1.centroids
        = [] ∧
      (load pq (Word.wi 0 :: Word.wi a :: Word.wi b :: Word.wi c :: rest)).1.dim
        = 0) ∧
    ((load pq []).2.2 = true ∧
      (load pq []).1.dim = pq.dim ∧
      (load pq []).1.nsubq = pq.nsubq ∧
      (load pq []).1.dsub = pq.dsub ∧
      (load pq []).1.lastdsub = pq.lastdsub) ∧
    (0 < d1 →
      (load pq [Word.wi d1, Word.wi a, Word.wi b, Word.wi c]).2.2 = true) := by
  refine ⟨?_, ?_, fun hd1 => ?_⟩
  · have h0 : resizeList pq.centroids 0 = [] := by
      simp [resizeList]
    simp [load, readI, h0, loadReals]
  · simp [load, readI, loadReals_failed]
  · have hne : resizeList pq.centroids (d1 * ksub) ≠ [] := by
      intro h
      have := resizeList_length pq.centroids (d1 * ksub)
      rw [h] at this
      simp [ksub] at this
      omega
    rcases hq : resizeList pq.centroids (d1 * ksub) with _ | ⟨q, qs⟩
    · exact absurd hq hne
    · simp [load, readI, hq, loadReals, readR, loadReals_failed]

/-- Witness for C5's amended theorem at concrete inputs. -/
theorem load_no_validation_amended_witness :
    (0:ℕ) < 1 ∧
    (load (ProductQuantizer.make 1 1 0 0 0 0)
        [Word.wi 1, Word.wi 1, Word.wi 1, Word.wi 1]).2.2 = true :=
  ⟨by decide,
   (load_no_validation_amended (ProductQuantizer.make 1 1 0 0 0 0)
      1 1 1 1 []).2.2 (by decide)⟩

theorem foldl_add_eq_sum (g : ℕ → ℚ) (a : ℚ) (n : ℕ) :
    (List.range n).foldl (fun r j => r + g j) a = a + ∑ j ∈ Finset.range n, g j := by
  induction n generalizing a with
  | zero => simp
  | succ n ih =>
    rw [List.range_succ, List.foldl_append, Finset.sum_range_succ]
    simp [ih]
    ring

theorem foldl_of_add_shape (F : ℚ → ℕ → ℚ) (G : ℕ → ℚ)
    (h : ∀ r m, F r m = r + G m) (a : ℚ) (n : ℕ) :
    (List.range n).foldl F a = a + ∑ m ∈ Finset.range n, G m := by
  induction n generalizing a with
  | zero => simp
  | succ n ih =>
    rw [List.range_succ, List.foldl_append, Finset.sum_range_succ]
    simp [ih, h]
    ring

/-- C9: `mulcode` (the spec's `approx_dot`) equals `alpha` times the sum,
over every subspace `m < nsubq_`, of the coordinate-wise dot product
between `x`'s `m`-th slice (offset `m*dsub_`, width `subWidth`, i.e.
`lastdsub_` for the final subspace) and the centroid selected by byte `m`
of code `t` (located through `get_centroids`), with no intermediate
reconstruction buffer in the definition. -/
theorem mulcode_is_scaled_dot (pq : PQ) (x : ℕ → ℚ) (codes : ℕ → ℕ)
    (t : ℕ) (alpha : ℚ) :
    mulcode pq x codes t alpha =
      alpha * ∑ m ∈ Finset.range pq.nsubq,
        ∑ j ∈ Finset.range (subWidth pq m),
          x (m * pq.dsub + j) *
            centAt pq (get_centroids pq m (codes (pq.nsubq * t + m)) + j) := by
  unfold mulcode
  rw [foldl_of_add_shape _
    (fun m => ∑ j ∈ Finset.range (subWidth pq m),
      x (m * pq.dsub + j) *
        centAt pq (get_centroids pq m (codes (pq.nsubq * t + m)) + j))
    (fun r m => foldl_add_eq_sum _ r (subWidth pq m))]
  ring


theorem block_addr_lt {k m d j : ℕ} (h : k < m) (hj : j < d) :
    k * d + j < m * d := by
  have h1 : (k + 1) * d = k * d + d := by ring
  have h2 : (k + 1) * d ≤ m * d := Nat.mul_le_mul_right d h
  omega

theorem block_disjoint {k m d j j' : ℕ} (hkm : k ≠ m) (hj : j < d)
    (hj' : j' < d) : k * d + j ≠ m * d + j' := by
  rcases Nat.lt_or_ge k m with h | h
  · have := block_addr_lt h hj
    omega
  · have hmk : m < k := by omega
    have := block_addr_lt hmk hj'
    omega

theorem block_sep {a b d i : ℕ} (hab : a ≠ b) (h1 : a * d ≤ i)
    (h2 : i < a * d + d) : ¬ (b * d ≤ i ∧ i < b * d + d) := by
  rintro ⟨g1, g2⟩
  have hd1 : i - a * d < d := by omega
  have hd2 : i - b * d < d := by omega
  have := block_disjoint hab hd1 hd2
  omega

theorem reseedSplit_fold_spec (eps : ℚ) (d k m : ℕ) (c : ℕ → ℚ)
    (hkm : k ≠ m) :
    ∀ t, t ≤ d →
      (∀ j, j < t →
        ((List.range t).foldl (perturbOne eps d k m) (reseedCopy d k m c))
            (k * d + j) = c (m * d + j) + pSign j * eps ∧
        ((List.range t).foldl (perturbOne eps d k m) (reseedCopy d k m c))
            (m * d + j) = c (m * d + j) - pSign j * eps) ∧
      (∀ j, t ≤ j → j < d →
        ((List.range t).foldl (perturbOne eps d k m) (reseedCopy d k m c))
            (k * d + j) = c (m * d + j) ∧
        ((List.range t).foldl (perturbOne eps d k m) (reseedCopy d k m c))
            (m * d + j) = c (m * d + j)) ∧
      (∀ i, ¬ (k * d ≤ i ∧ i < k * d + d) → ¬ (m * d ≤ i ∧ i < m * d + d) →
        ((List.range t).foldl (perturbOne eps d k m) (reseedCopy d k m c)) i
          = c i) := by
  intro t
  induction t with
  | zero =>
    intro _
    refine ⟨fun j hj => by omega, fun j hj0 hjd => ?_, fun i hik him => ?_⟩
    · constructor
      · simp only [List.range_zero, List.foldl_nil, reseedCopy]
        rw [if_pos ⟨Nat.le_add_right _ _, by omega⟩]
        congr 1
        omega
      · simp only [List.range_zero, List.foldl_nil, reseedCopy]
        rw [if_neg (block_sep (Ne.symm hkm) (Nat.le_add_right _ _) (by omega))]
    · simp only [List.range_zero, List.foldl_nil, reseedCopy]
      rw [if_neg hik]
  | succ t ih =>
    intro ht
    have ht' : t ≤ d := by omega
    have htd : t < d := by omega
    obtain ⟨ih1, ih2, ih3⟩ := ih ht'
    set g := (List.range t).foldl (perturbOne eps d k m) (reseedCopy d k m c)
      with hg
    have hstep : (List.range (t + 1)).foldl (perturbOne eps d k m)
        (reseedCopy d k m c) = perturbOne eps d k m g t := by
      rw [List.range_succ, List.foldl_append, List.foldl_cons, List.foldl_nil]
    have hne : k * d + t ≠ m * d + t := block_disjoint hkm htd htd
    have hgk : g (k * d + t) = c (m * d + t) := (ih2 t le_rfl htd).1
    have hgm : g (m * d + t) = c (m * d + t) := (ih2 t le_rfl htd).2
    rw [hstep]
    simp only [perturbOne]
    refine ⟨fun j hj => ?_, fun j hj0 hjd => ?_, fun i hik him => ?_⟩
    · rcases Nat.lt_or_ge j t with hjt | hjt
      · have h1 : k * d + j ≠ m * d + t := block_disjoint hkm (by omega) htd
        have h2 : k * d + j ≠ k * d + t := by omega
        have h3 : m * d + j ≠ m * d + t := by omega
        have h4 : m * d + j ≠ k * d + t :=
          block_disjoint (Ne.symm hkm) (by omega) htd
        rw [Function.update_noteq h1, Function.update_noteq h2,
          Function.update_noteq h3, Function.update_noteq h4]
        exact ih1 j hjt
      · have hjt' : j = t := by omega
        subst hjt'
        constructor
        · rw [Function.update_noteq hne, Function.update_same, hgk]
        · rw [Function.update_same, Function.update_noteq (Ne.symm hne), hgm]
    · have h1 : k * d + j ≠ m * d + t := block_disjoint hkm hjd htd
      have h2 : k * d + j ≠ k * d + t := by omega
      have h3 : m * d + j ≠ m * d + t := by omega
      have h4 : m * d + j ≠ k * d + t :=
        block_disjoint (Ne.symm hkm) hjd htd
      rw [Function.update_noteq h1, Function.update_noteq h2,
        Function.update_noteq h3, Function.update_noteq h4]
      exact ih2 j (by omega) hjd
    · have hi1 : i ≠ m * d + t := by
        intro h
        exact him (h ▸ ⟨Nat.le_add_right _ _, by omega⟩)
      have hi2 : i ≠ k * d + t := by
        intro h
        exact hik (h ▸ ⟨Nat.le_add_right _ _, by omega⟩)
      rw [Function.update_noteq hi1, Function.update_noteq hi2]
      exact ih3 i hik him

theorem reseedSplit_values (eps : ℚ) (d k m : ℕ) (c : ℕ → ℚ) (hkm : k ≠ m) :
    (∀ j, j < d →
      reseedSplit eps d k m c (k * d + j) = c (m * d + j) + pSign j * eps ∧
      reseedSplit eps d k m c (m * d + j) = c (m * d + j) - pSign j * eps) ∧
    (∀ i, ¬ (k * d ≤ i ∧ i < k * d + d) → ¬ (m * d ≤ i ∧ i < m * d + d) →
      reseedSplit eps d k m c i = c i) := by
  obtain ⟨h1, _, h3⟩ := reseedSplit_fold_spec eps d k m c hkm d le_rfl
  exact ⟨h1, h3⟩

/-- C6 (counterexample to the claim as stated): with one coordinate
(`j = 0`, even), an all-zero donor centroid and `eps_ = 1`, the claim as
stated predicts the donor's coordinate decreases to `0 - eps = -1`; the
code increases it (to `+1`). -/
theorem reseed_direction_counterexample :
    reseedSplit 1 1 0 1 (fun _ => (0:ℚ)) (1 * 1 + 0) = (0:ℚ) + 1 ∧
    ¬ (reseedSplit 1 1 0 1 (fun _ => (0:ℚ)) (1 * 1 + 0) = (0:ℚ) - 1) := by
  have h := ((reseedSplit_values 1 1 0 1 (fun _ => (0:ℚ)) (by decide)).1 0
    (by decide)).2
  rw [h]
  norm_num [pSign]

/-- C6 (amended): in the empty-cluster reseed, after the donor block `m` is
copied into the empty block `k`, coordinate `j` of both centroids is
perturbed by `eps_` with sign `(j % 2) * 2 - 1`: for even `j` the NEW
cluster's coordinate decreases by `eps_` and the DONOR's increases by
`eps_` (the directions the claim stated are swapped); for odd `j` they are
reversed; consequently the coordinate-wise mean of the two resulting
centroids equals the donor's pre-split centroid. -/
theorem reseed_split_perturbation (eps : ℚ) (d k m : ℕ) (c : ℕ → ℚ)
    (hkm : k ≠ m) :
    ∀ j, j < d →
      reseedSplit eps d k m c (k * d + j) = c (m * d + j) + pSign j * eps ∧
      reseedSplit eps d k m c (m * d + j) = c (m * d + j) - pSign j * eps ∧
      (j % 2 = 0 →
        reseedSplit eps d k m c (k * d + j) = c (m * d + j) - eps ∧
        reseedSplit eps d k m c (m * d + j) = c (m * d + j) + eps) ∧
      (j % 2 = 1 →
        reseedSplit eps d k m c (k * d + j) = c (m * d + j) + eps ∧
        reseedSplit eps d k m c (m * d + j) = c (m * d + j) - eps) ∧
      (reseedSplit eps d k m c (k * d + j) +
          reseedSplit eps d k m c (m * d + j)) / 2 = c (m * d + j) := by
  intro j hj
  obtain ⟨hk, hm⟩ := (reseedSplit_values eps d k m c hkm).1 j hj
  have hs0 : j % 2 = 0 → pSign j = -1 := by
    intro h
    simp [pSign, h]
  have hs1 : j % 2 = 1 → pSign j = 1 := by
    intro h
    simp [pSign, h]
    norm_num
  refine ⟨hk, hm, fun h => ?_, fun h => ?_, ?_⟩
  · rw [hk, hm, hs0 h]
    constructor <;> ring
  · rw [hk, hm, hs1 h]
    constructor <;> ring
  · rw [hk, hm]
    ring

/-- Witness for C6's amended theorem at concrete inputs
(`eps_ = 2`, `d = 2`, empty cluster 0, donor 1, constant-3 donor block,
coordinate `j = 0`). -/
theorem reseed_split_perturbation_witness :
    (0 : ℕ) ≠ 1 ∧
    reseedSplit 2 2 0 1 (fun _ => (3:ℚ)) (0 * 2 + 0)
      = (fun _ => (3:ℚ)) (1 * 2 + 0) + pSign 0 * 2 :=
  ⟨by decide,
   ((reseed_split_perturbation 2 2 0 1 (fun _ => (3:ℚ)) (by decide)) 0
      (by decide)).1⟩

theorem assignLoop_spec (f : ℕ → ℚ) (k : ℕ) :
    (assignLoop f k).1 ≤ k ∧
    (assignLoop f k).2 = f (assignLoop f k).1 ∧
    (∀ i, i ≤ k → (assignLoop f k).2 ≤ f i) ∧
    (∀ i, i ≤ k → f i = (assignLoop f k).2 → (assignLoop f k).1 ≤ i) := by
  induction k with
  | zero =>
    refine ⟨le_rfl, rfl, fun i hi => ?_, fun i hi _ => Nat.zero_le i⟩
    interval_cases i
    exact le_rfl
  | succ k ih =>
    obtain ⟨ihb, ihv, ihmin, ihleast⟩ := ih
    by_cases hlt : f (k + 1) < (assignLoop f k).2
    · have hres : assignLoop f (k + 1) = (k + 1, f (k + 1)) := by
        simp only [assignLoop]
        rw [if_pos hlt]
      rw [hres]
      refine ⟨le_rfl, rfl, fun i hi => ?_, fun i hi heq => ?_⟩
      · rcases Nat.lt_or_ge i (k + 1) with h | h
        · exact le_of_lt (lt_of_lt_of_le hlt (ihmin i (by omega)))
        · have : i = k + 1 := by omega
          rw [this]
      · rcases Nat.lt_or_ge i (k + 1) with h | h
        · have h1 := ihmin i (by omega)
          rw [heq] at h1
          exact absurd (lt_of_lt_of_le hlt h1) (lt_irrefl _)
        · omega
    · have hres : assignLoop f (k + 1) = assignLoop f k := by
        simp only [assignLoop]
        rw [if_neg hlt]
      rw [hres]
      refine ⟨le_trans ihb (by omega), ihv, fun i hi => ?_, fun i hi heq => ?_⟩
      · rcases Nat.lt_or_ge i (k + 1) with h | h
        · exact ihmin i (by omega)
        · have : i = k + 1 := by omega
          rw [this]
          exact le_of_not_lt hlt
      · rcases Nat.lt_or_ge i (k + 1) with h | h
        · exact ihleast i (by omega) heq
        · omega

theorem assignLoop_congr (f g : ℕ → ℚ) (k : ℕ) (h : ∀ j, j ≤ k → f j = g j) :
    assignLoop f k = assignLoop g k := by
  induction k with
  | zero =>
    simp only [assignLoop]
    rw [h 0 le_rfl]
  | succ k ih =>
    simp only [assignLoop]
    rw [ih (fun j hj => h j (by omega)), h (k + 1) le_rfl]

theorem distL2_congr (x y y' : ℕ → ℚ) (d : ℕ)
    (h : ∀ i, i < d → y i = y' i) : distL2 x y d = distL2 x y' d := by
  unfold distL2
  exact Finset.sum_congr rfl
    (fun i hi => by rw [h i (Finset.mem_range.mp hi)])

theorem get_centroids_step (pq : PQ) (m j : ℕ) :
    get_centroids pq m 0 + j * subWidth pq m = get_centroids pq m j := by
  unfold get_centroids subWidth
  split <;> ring

theorem compute_code_eq_assignLoop (pq : PQ) (x : ℕ → ℚ) (m : ℕ) :
    compute_code pq x m = (assignLoop (subspaceDist pq x m) (ksub - 1)).1 := by
  unfold compute_code assign_centroid
  congr 1
  apply assignLoop_congr
  intro j _
  apply distL2_congr
  intro i _
  show centAt pq (get_centroids pq m 0 + (j * subWidth pq m + i))
      = centAt pq (get_centroids pq m j + i)
  congr 1
  rw [← get_centroids_step pq m j]
  ring

/-- C2: for every quantizer state and input vector, byte `m` of
`compute_code`'s output is the smallest index among the `ksub_` candidate
centroids minimizing the squared L2 distance to the vector's `m`-th slice
(the strict `<` keeps the lowest-index minimizer on ties), and any index
with those two properties — i.e. any re-derivation of the nearest centroid
from the same stored table — coincides with it, so repeated calls
reproduce the identical code. -/
theorem compute_code_least_nearest (pq : PQ) (x : ℕ → ℚ) (m : ℕ)
    (hm : m < pq.nsubq) :
    compute_code pq x m < ksub ∧
    (∀ j, j < ksub →
      subspaceDist pq x m (compute_code pq x m) ≤ subspaceDist pq x m j) ∧
    (∀ j, j < ksub →
      subspaceDist pq x m j = subspaceDist pq x m (compute_code pq x m) →
      compute_code pq x m ≤ j) ∧
    (∀ c', c' < ksub →
      (∀ j, j < ksub → subspaceDist pq x m c' ≤ subspaceDist pq x m j) →
      (∀ j, j < ksub → subspaceDist pq x m j = subspaceDist pq x m c' →
        c' ≤ j) →
      c' = compute_code pq x m) := by
  have hks : ksub = 256 := rfl
  rw [compute_code_eq_assignLoop pq x m]
  obtain ⟨hb, hv, hmin, hleast⟩ := assignLoop_spec (subspaceDist pq x m) (ksub - 1)
  refine ⟨by omega, fun j hj => ?_, fun j hj heq => ?_, fun c' hc' hmin' hleast' => ?_⟩
  · rw [← hv]
    exact hmin j (by omega)
  · exact hleast j (by omega) (by rw [heq, hv])
  · have h1 : subspaceDist pq x m c'
        ≤ subspaceDist pq x m (assignLoop (subspaceDist pq x m) (ksub - 1)).1 :=
      hmin' _ (by omega)
    have h2 : subspaceDist pq x m (assignLoop (subspaceDist pq x m) (ksub - 1)).1
        ≤ subspaceDist pq x m c' := by
      rw [← hv]
      exact hmin c' (by omega)
    have heq : subspaceDist pq x m c'
        = subspaceDist pq x m (assignLoop (subspaceDist pq x m) (ksub - 1)).1 :=
      le_antisymm h1 h2
    have h3 : c' ≤ (assignLoop (subspaceDist pq x m) (ksub - 1)).1 :=
      hleast' _ (by omega) heq.symm
    have h4 : (assignLoop (subspaceDist pq x m) (ksub - 1)).1 ≤ c' :=
      hleast c' (by omega) (by rw [heq, hv])
    omega

/-- Witness for C2 at a concrete quantizer (`dim = 3`, `dsub = 2`, so the
last subspace `m = 1` has width 1) and the zero vector. -/
theorem compute_code_least_nearest_witness :
    1 < (ProductQuantizer.make 3 2 0 0 0 0).nsubq ∧
    compute_code (ProductQuantizer.make 3 2 0 0 0 0) (fun _ => 0) 1 < ksub :=
  ⟨by decide,
   (compute_code_least_nearest (ProductQuantizer.make 3 2 0 0 0 0)
      (fun _ => 0) 1 (by decide)).1⟩

theorem findDonor_bound (u : ℕ → ℚ) (ne : ℕ → ℕ) (n : ℕ) :
    ∀ fuel m0 pos m pos', m0 < ksub →
      findDonor u ne n fuel m0 pos = some (m, pos') → m < ksub := by
  intro fuel
  induction fuel with
  | zero => intro m0 pos m pos' _ h; simp [findDonor] at h
  | succ fuel ih =>
    intro m0 pos m pos' hm0 h
    rw [findDonor] at h
    split at h
    · exact ih _ _ _ _ (Nat.mod_lt _ (by decide)) h
    · obtain ⟨h1, h2⟩ := Prod.mk.injEq .. ▸ Option.some.injEq .. ▸ h
      omega

theorem findDonor_count (u : ℕ → ℚ) (ne : ℕ → ℕ) (n : ℕ)
    (hn : ksub ≤ n) (hu : ∀ t, 0 ≤ u t) :
    ∀ fuel m0 pos m pos',
      findDonor u ne n fuel m0 pos = some (m, pos') → 2 ≤ ne m := by
  intro fuel
  induction fuel with
  | zero => intro m0 pos m pos' h; simp [findDonor] at h
  | succ fuel ih =>
    intro m0 pos m pos' h
    rw [findDonor] at h
    split at h
    · exact ih _ _ _ _ h
    · rename_i hcond
      have hm : m = m0 := by
        obtain ⟨h1, h2⟩ := Prod.mk.injEq .. ▸ Option.some.injEq .. ▸ h
        omega
      subst hm
      have hge : (0:ℚ) ≤ u pos * ((n : ℚ) - (ksub : ℚ)) := by
        apply mul_nonneg (hu pos)
        have : (ksub : ℚ) ≤ (n : ℚ) := by exact_mod_cast hn
        linarith
      have hgt : (1:ℚ) < (ne m : ℚ) := by
        by_contra hle
        exact hcond (by push_neg at hle; linarith)
      exact_mod_cast Nat.one_lt_cast.mp hgt

theorem mstepAccum_counts_sum (x : ℕ → ℚ) (codes : ℕ → ℕ) (d : ℕ)
    (c0 : ℕ → ℚ) :
    ∀ n, (∀ i, i < n → codes i < ksub) →
      ∑ k ∈ Finset.range ksub, (mstepAccum x codes d c0 n).2 k = n := by
  intro n
  induction n with
  | zero => simp [mstepAccum]
  | succ n ih =>
    intro hcodes
    have hmem : codes n ∈ Finset.range ksub :=
      Finset.mem_range.mpr (hcodes n (by omega))
    have hstep : (mstepAccum x codes d c0 (n + 1)).2
        = Function.update (mstepAccum x codes d c0 n).2 (codes n)
            ((mstepAccum x codes d c0 n).2 (codes n) + 1) := rfl
    rw [hstep, Finset.sum_update_of_mem hmem]
    have hsplit : ∑ k ∈ Finset.range ksub, (mstepAccum x codes d c0 n).2 k
        = (mstepAccum x codes d c0 n).2 (codes n)
          + ∑ k ∈ Finset.range ksub \ {codes n},
              (mstepAccum x codes d c0 n).2 k := by
      rw [Finset.sum_eq_sum_diff_singleton_add hmem]
      ring
    have hih := ih (fun i hi => hcodes i (by omega))
    omega

theorem neUpdate_spec (ne : ℕ → ℕ) (k m : ℕ) (hkm : k ≠ m) :
    neUpdate ne k m k = ne m / 2 ∧
    neUpdate ne k m m = ne m - ne m / 2 ∧
    (∀ j, j ≠ k → j ≠ m → neUpdate ne k m j = ne j) := by
  unfold neUpdate
  refine ⟨?_, ?_, fun j hjk hjm => ?_⟩
  · rw [Function.update_noteq hkm, Function.update_same]
  · rw [Function.update_same, Function.update_noteq (Ne.symm hkm),
      Function.update_same]
  · rw [Function.update_noteq hjm, Function.update_noteq hjk]

theorem neUpdate_sum (ne : ℕ → ℕ) (k m : ℕ) (hkm : k ≠ m)
    (hk : k < ksub) (hm : m < ksub) (h0 : ne k = 0) :
    ∑ j ∈ Finset.range ksub, neUpdate ne k m j
      = ∑ j ∈ Finset.range ksub, ne j := by
  obtain ⟨hvk, hvm, hother⟩ := neUpdate_spec ne k m hkm
  have hkmem : k ∈ Finset.range ksub := Finset.mem_range.mpr hk
  have hmmem : m ∈ (Finset.range ksub).erase k :=
    Finset.mem_erase.mpr ⟨Ne.symm hkm, Finset.mem_range.mpr hm⟩
  have hsplitf : ∀ f : ℕ → ℕ, ∑ j ∈ Finset.range ksub, f j
      = f k + (f m + ∑ j ∈ ((Finset.range ksub).erase k).erase m, f j) := by
    intro f
    rw [← Finset.add_sum_erase _ f hkmem, ← Finset.add_sum_erase _ f hmmem]
  rw [hsplitf (neUpdate ne k m), hsplitf ne]
  have hcongr : ∑ j ∈ ((Finset.range ksub).erase k).erase m, neUpdate ne k m j
      = ∑ j ∈ ((Finset.range ksub).erase k).erase m, ne j := by
    apply Finset.sum_congr rfl
    intro j hj
    have hjm : j ≠ m := (Finset.mem_erase.mp hj).1
    have hjk : j ≠ k := (Finset.mem_erase.mp (Finset.mem_erase.mp hj).2).1
    exact hother j hjk hjm
  rw [hcongr, hvk, hvm, h0]
  omega

theorem reseedPass_zero (eps : ℚ) (u : ℕ → ℚ) (n d fuel : ℕ)
    (st : (ℕ → ℚ) × (ℕ → ℕ) × ℕ) :
    reseedPass eps u n d fuel st 0 = some st := rfl

theorem reseedPass_succ (eps : ℚ) (u : ℕ → ℚ) (n d fuel : ℕ)
    (st : (ℕ → ℚ) × (ℕ → ℕ) × ℕ) (p : ℕ) :
    reseedPass eps u n d fuel st (p + 1)
      = (reseedPass eps u n d fuel st p).bind
          (fun st' => reseedStep eps u n d fuel st' p) := by
  unfold reseedPass
  rw [List.range_succ, List.foldlM_append]
  cases (List.range p).foldlM (reseedStep eps u n d fuel) st with
  | none => rfl
  | some stp =>
    show (List.foldlM _ stp [p] : Option _) = reseedStep eps u n d fuel stp p
    rw [List.foldlM_cons]
    cases reseedStep eps u n d fuel stp p with
    | none => rfl
    | some st' => rfl

theorem reseedStep_cases (eps : ℚ) (u : ℕ → ℚ) (n d fuel : ℕ)
    (st st' : (ℕ → ℚ) × (ℕ → ℕ) × ℕ) (k : ℕ)
    (h : reseedStep eps u n d fuel st k = some st') :
    (st.2.1 k ≠ 0 ∧ st' = st) ∨
    (st.2.1 k = 0 ∧ ∃ m pos',
      findDonor u st.2.1 n fuel 0 st.2.2 = some (m, pos') ∧
      st' = (reseedSplit eps d k m st.1, neUpdate st.2.1 k m, pos')) := by
  unfold reseedStep at h
  split at h
  · rename_i h0
    rcases hfd : findDonor u st.2.1 n fuel 0 st.2.2 with _ | ⟨m, pos'⟩
    · rw [hfd] at h
      simp at h
    · rw [hfd] at h
      simp only [Option.some.injEq] at h
      exact Or.inr ⟨h0, m, pos', rfl, h.symm⟩
  · rename_i h0
    simp only [Option.some.injEq] at h
    exact Or.inl ⟨h0, h.symm⟩

theorem reseedPass_count_inv (eps : ℚ) (u : ℕ → ℚ) (n d fuel : ℕ)
    (hn : ksub ≤ n) (hu : ∀ t, 0 ≤ u t)
    (st : (ℕ → ℚ) × (ℕ → ℕ) × ℕ) :
    ∀ p, p ≤ ksub → ∀ st', reseedPass eps u n d fuel st p = some st' →
      (∑ k ∈ Finset.range ksub, st'.2.1 k
        = ∑ k ∈ Finset.range ksub, st.2.1 k) ∧
      (∀ k, 1 ≤ st.2.1 k → 1 ≤ st'.2.1 k) ∧
      (∀ k, k < p → 1 ≤ st'.2.1 k) := by
  intro p
  induction p with
  | zero =>
    intro _ st' h
    rw [reseedPass_zero] at h
    obtain rfl : st = st' := Option.some.injEq .. ▸ h
    exact ⟨rfl, fun k hk => hk, fun k hk => by omega⟩
  | succ p ih =>
    intro hp st' h
    rw [reseedPass_succ] at h
    obtain ⟨stp, hpass, hstep⟩ := Option.bind_eq_some.mp h
    obtain ⟨hsum, hmono, hlow⟩ := ih (by omega) stp hpass
    rcases reseedStep_cases eps u n d fuel stp st' p hstep with
      ⟨hne0, rfl⟩ | ⟨hzero, m, pos', hfd, rfl⟩
    · refine ⟨hsum, hmono, fun k hk => ?_⟩
      rcases Nat.lt_or_ge k p with hlt | hge
      · exact hlow k hlt
      · have : k = p := by omega
        subst this
        omega
    · have hm2 : 2 ≤ stp.2.1 m := findDonor_count u stp.2.1 n hn hu _ _ _ _ _ hfd
      have hmlt : m < ksub :=
        findDonor_bound u stp.2.1 n _ _ _ _ _ (by decide) hfd
      have hpm : p ≠ m := by
        intro h
        rw [h] at hzero
        omega
      have hplt : p < ksub := by omega
      obtain ⟨hvk, hvm, hother⟩ := neUpdate_spec stp.2.1 p m hpm
      have hstepval : ∀ k, 1 ≤ stp.2.1 k → 1 ≤ neUpdate stp.2.1 p m k := by
        intro k hk1
        rcases eq_or_ne k p with rfl | hkp
        · omega
        · rcases eq_or_ne k m with rfl | hkm2
          · rw [hvm]; omega
          · rw [hother k hkp hkm2]; exact hk1
      refine ⟨?_, fun k hk1 => hstepval k (hmono k hk1), fun k hk => ?_⟩
      · show ∑ j ∈ Finset.range ksub, neUpdate stp.2.1 p m j = _
        rw [neUpdate_sum stp.2.1 p m hpm hplt hmlt hzero]
        exact hsum
      · rcases Nat.lt_or_ge k p with hlt | hge
        · exact hstepval k (hlow k hlt)
        · have : k = p := by omega
          subst this
          show 1 ≤ neUpdate stp.2.1 k m k
          rw [hvk]
          omega

/-- C7: for every completed M-step on `n ≥ ksub_` points whose codes are
valid bytes and whose draws are nonnegative, after the reseed pass no
cluster's recorded count is zero and the recorded counts over the `ksub_`
clusters still sum to `n` (the integer-division split gives the new
cluster exactly what it subtracts from the donor). -/
theorem mstep_counts_invariant (eps : ℚ) (u : ℕ → ℚ) (fuel : ℕ)
    (x c : ℕ → ℚ) (codes : ℕ → ℕ) (d n pos : ℕ)
    (hn : ksub ≤ n) (hu : ∀ t, 0 ≤ u t)
    (hcodes : ∀ i, i < n → codes i < ksub) :
    (MStep eps u fuel x c codes d n pos).elim True (fun st' =>
      (∀ k, k < ksub → 1 ≤ st'.2.1 k) ∧
      ∑ k ∈ Finset.range ksub, st'.2.1 k = n) := by
  unfold MStep
  rcases heq : reseedPass eps u n d fuel
      (mstepMeans (mstepAccum x codes d (mstepClear c d) n).1
        (mstepAccum x codes d (mstepClear c d) n).2 d,
        (mstepAccum x codes d (mstepClear c d) n).2, pos) ksub
    with _ | st'
  · exact trivial
  · obtain ⟨hsum, _, hlow⟩ :=
      reseedPass_count_inv eps u n d fuel hn hu _ ksub le_rfl st' heq
    refine ⟨fun k hk => hlow k hk, ?_⟩
    rw [hsum]
    exact mstepAccum_counts_sum x codes d (mstepClear c d) n hcodes

/-- Witness for C7: a concrete completed M-step on `n = 256` points of
width 1 whose codes hit each cluster exactly once. -/
theorem mstep_counts_invariant_witness :
    (MStep 0 (fun _ => 0) 1 (fun _ => 0) (fun _ => 0) (fun i => i % 256)
        1 256 0).isSome = true ∧
    (MStep 0 (fun _ => 0) 1 (fun _ => 0) (fun _ => 0) (fun i => i % 256)
        1 256 0).elim True (fun st' =>
      (∀ k, k < ksub → 1 ≤ st'.2.1 k) ∧
      ∑ k ∈ Finset.range ksub, st'.2.1 k = 256) :=
  ⟨by decide,
   mstep_counts_invariant 0 (fun _ => 0) 1 (fun _ => 0) (fun _ => 0)
     (fun i => i % 256) 1 256 0 (by decide) (fun t => le_refl 0)
     (fun i _ => Nat.mod_lt i (by decide))⟩

theorem mstepAccum_zero_count_block (x : ℕ → ℚ) (codes : ℕ → ℕ) (d : ℕ)
    (c0 : ℕ → ℚ) :
    ∀ n k, (mstepAccum x codes d c0 n).2 k = 0 →
      ∀ j, j < d → (mstepAccum x codes d c0 n).1 (k * d + j) = c0 (k * d + j) := by
  intro n
  induction n with
  | zero => intro k _ j _; rfl
  | succ n ih =>
    intro k hk j hj
    have hcount : Function.update (mstepAccum x codes d c0 n).2 (codes n)
        ((mstepAccum x codes d c0 n).2 (codes n) + 1) k = 0 := hk
    have hkcn : k ≠ codes n := by
      intro h
      rw [h, Function.update_same] at hcount
      omega
    have hprev : (mstepAccum x codes d c0 n).2 k = 0 := by
      rw [Function.update_noteq hkcn] at hcount
      exact hcount
    have hnotin : ¬ (codes n * d ≤ k * d + j ∧ k * d + j < codes n * d + d) :=
      block_sep hkcn (Nat.le_add_right _ _) (by omega)
    show (if codes n * d ≤ k * d + j ∧ k * d + j < codes n * d + d then _ else
        (mstepAccum x codes d c0 n).1 (k * d + j)) = c0 (k * d + j)
    rw [if_neg hnotin]
    exact ih k hprev j hj

theorem reseedPass_zero_block_inv (eps : ℚ) (u : ℕ → ℚ) (n d fuel : ℕ)
    (hn : ksub ≤ n) (hu : ∀ t, 0 ≤ u t)
    (st : (ℕ → ℚ) × (ℕ → ℕ) × ℕ) :
    ∀ p, p ≤ ksub → ∀ st', reseedPass eps u n d fuel st p = some st' →
      ∀ k, p ≤ k → k < ksub → st.2.1 k = 0 →
        st'.2.1 k = 0 ∧ ∀ j, j < d → st'.1 (k * d + j) = st.1 (k * d + j) := by
  intro p
  induction p with
  | zero =>
    intro _ st' h k _ _ hk0
    rw [reseedPass_zero] at h
    obtain rfl : st = st' := Option.some.injEq .. ▸ h
    exact ⟨hk0, fun j _ => rfl⟩
  | succ p ih =>
    intro hp st' h k hkp hkub hk0
    rw [reseedPass_succ] at h
    obtain ⟨stp, hpass, hstep⟩ := Option.bind_eq_some.mp h
    obtain ⟨hcnt, hblk⟩ := ih (by omega) stp hpass k (by omega) hkub hk0
    rcases reseedStep_cases eps u n d fuel stp st' p hstep with
      ⟨_, rfl⟩ | ⟨hzero, m, pos', hfd, rfl⟩
    · exact ⟨hcnt, hblk⟩
    · have hm2 : 2 ≤ stp.2.1 m := findDonor_count u stp.2.1 n hn hu _ _ _ _ _ hfd
      have hpm : p ≠ m := by
        intro hh
        rw [hh] at hzero
        omega
      have hkp' : k ≠ p := by omega
      have hkm : k ≠ m := by
        intro hh
        rw [hh] at hcnt
        omega
      obtain ⟨_, _, hother⟩ := neUpdate_spec stp.2.1 p m hpm
      refine ⟨by rw [show (reseedSplit eps d p m stp.1, neUpdate stp.2.1 p m,
          pos').2.1 k = neUpdate stp.2.1 p m k from rfl,
          hother k hkp' hkm]; exact hcnt, fun j hj => ?_⟩
      show reseedSplit eps d p m stp.1 (k * d + j) = st.1 (k * d + j)
      rw [(reseedSplit_values eps d p m stp.1 hpm).2 (k * d + j)
        (block_sep hkp' (Nat.le_add_right _ _) (by omega))
        (block_sep hkm (Nat.le_add_right _ _) (by omega))]
      exact hblk j hj

theorem reseedStep_overwrite (eps : ℚ) (u : ℕ → ℚ) (n d fuel : ℕ)
    (hn : ksub ≤ n) (hu : ∀ t, 0 ≤ u t)
    (st st' : (ℕ → ℚ) × (ℕ → ℕ) × ℕ) (k : ℕ)
    (h0 : st.2.1 k = 0) (h : reseedStep eps u n d fuel st k = some st') :
    ∃ m pos', findDonor u st.2.1 n fuel 0 st.2.2 = some (m, pos') ∧
      2 ≤ st.2.1 m ∧
      (∀ j, j < d → st'.1 (k * d + j) = st.1 (m * d + j) + pSign j * eps) ∧
      st'.2.1 k = st.2.1 m / 2 := by
  rcases reseedStep_cases eps u n d fuel st st' k h with
    ⟨hne, _⟩ | ⟨_, m, pos', hfd, rfl⟩
  · exact absurd h0 hne
  · have hm2 : 2 ≤ st.2.1 m := findDonor_count u st.2.1 n hn hu _ _ _ _ _ hfd
    have hkm : k ≠ m := by
      intro hh
      rw [hh] at h0
      omega
    refine ⟨m, pos', hfd, hm2, fun j hj => ?_, ?_⟩
    · exact ((reseedSplit_values eps d k m st.1 hkm).1 j hj).1
    · exact (neUpdate_spec st.2.1 k m hkm).1

/-- C10: in the M-step, the mean division touches only clusters with a
nonzero recorded count; a cluster whose count is zero keeps the all-zero
block produced by the initial `memset` through the mean phase, and keeps
count 0 and the all-zero block through every reseed iteration that
precedes its own, until its own reseed step overwrites the block with the
epsilon-perturbed copy of a donor whose count is at least 2. -/
theorem mstep_zero_count_safety (eps : ℚ) (u : ℕ → ℚ) (fuel : ℕ)
    (x c : ℕ → ℚ) (codes : ℕ → ℕ) (d n pos : ℕ)
    (hn : ksub ≤ n) (hu : ∀ t, 0 ≤ u t) :
    (∀ idx, (mstepAccum x codes d (mstepClear c d) n).2 (idx / d) = 0 →
      mstepMeans (mstepAccum x codes d (mstepClear c d) n).1
          (mstepAccum x codes d (mstepClear c d) n).2 d idx
        = (mstepAccum x codes d (mstepClear c d) n).1 idx) ∧
    (∀ k, k < ksub → (mstepAccum x codes d (mstepClear c d) n).2 k = 0 →
      ∀ j, j < d →
        mstepMeans (mstepAccum x codes d (mstepClear c d) n).1
          (mstepAccum x codes d (mstepClear c d) n).2 d (k * d + j) = 0) ∧
    (∀ p, p ≤ ksub → ∀ st',
      reseedPass eps u n d fuel
          (mstepMeans (mstepAccum x codes d (mstepClear c d) n).1
            (mstepAccum x codes d (mstepClear c d) n).2 d,
          (mstepAccum x codes d (mstepClear c d) n).2, pos) p = some st' →
      ∀ k, p ≤ k → k < ksub →
        (mstepAccum x codes d (mstepClear c d) n).2 k = 0 →
        st'.2.1 k = 0 ∧ ∀ j, j < d → st'.1 (k * d + j) = 0) ∧
    (∀ (st st' : (ℕ → ℚ) × (ℕ → ℕ) × ℕ) (k : ℕ), st.2.1 k = 0 →
      reseedStep eps u n d fuel st k = some st' →
      ∃ m pos', findDonor u st.2.1 n fuel 0 st.2.2 = some (m, pos') ∧
        2 ≤ st.2.1 m ∧
        (∀ j, j < d → st'.1 (k * d + j) = st.1 (m * d + j) + pSign j * eps) ∧
        st'.2.1 k = st.2.1 m / 2) := by
  have hmeans_skip : ∀ idx,
      (mstepAccum x codes d (mstepClear c d) n).2 (idx / d) = 0 →
      mstepMeans (mstepAccum x codes d (mstepClear c d) n).1
          (mstepAccum x codes d (mstepClear c d) n).2 d idx
        = (mstepAccum x codes d (mstepClear c d) n).1 idx := by
    intro idx hidx
    unfold mstepMeans
    rw [if_neg (by
      rintro ⟨_, hne⟩
      exact hne hidx)]
  have hzero_block : ∀ k, k < ksub →
      (mstepAccum x codes d (mstepClear c d) n).2 k = 0 →
      ∀ j, j < d →
        mstepMeans (mstepAccum x codes d (mstepClear c d) n).1
          (mstepAccum x codes d (mstepClear c d) n).2 d (k * d + j) = 0 := by
    intro k hk hck j hj
    have hd : 0 < d := by omega
    have hdiv : (k * d + j) / d = k := by
      rw [mul_comm k d, Nat.mul_add_div hd, Nat.div_eq_of_lt hj]
      omega
    rw [hmeans_skip (k * d + j) (by rw [hdiv]; exact hck),
      mstepAccum_zero_count_block x codes d (mstepClear c d) n k hck j hj]
    unfold mstepClear
    rw [if_pos]
    have h1 : (k + 1) * d ≤ ksub * d := Nat.mul_le_mul_right d (by omega)
    have h2 : (k + 1) * d = k * d + d := by ring
    have h3 : ksub * d = d * ksub := by ring
    omega
  refine ⟨hmeans_skip, hzero_block, fun p hp st' hpass k hkp hkub hk0 => ?_,
    fun st st' k h0 h => reseedStep_overwrite eps u n d fuel hn hu st st' k h0 h⟩
  obtain ⟨hcnt, hblk⟩ := reseedPass_zero_block_inv eps u n d fuel hn hu _
    p hp st' hpass k hkp hkub hk0
  exact ⟨hcnt, fun j hj => by rw [hblk j hj]; exact hzero_block k hkub hk0 j hj⟩

/-- Witness for C10 at the same concrete M-step inputs as C7's witness
(`n = 256`, width 1, one point per cluster, zero draws). -/
theorem mstep_zero_count_safety_witness :
    ksub ≤ 256 ∧
    (∀ idx, (mstepAccum (fun _ => 0) (fun i => i % 256) 1
        (mstepClear (fun _ => 0) 1) 256).2 (idx / 1) = 0 →
      mstepMeans (mstepAccum (fun _ => 0) (fun i => i % 256) 1
            (mstepClear (fun _ => 0) 1) 256).1
          (mstepAccum (fun _ => 0) (fun i => i % 256) 1
            (mstepClear (fun _ => 0) 1) 256).2 1 idx
        = (mstepAccum (fun _ => 0) (fun i => i % 256) 1
            (mstepClear (fun _ => 0) 1) 256).1 idx) :=
  ⟨by decide,
   (mstep_zero_count_safety 0 (fun _ => 0) 1 (fun _ => 0) (fun _ => 0)
      (fun i => i % 256) 1 256 0 (by decide) (fun t => le_refl 0)).1⟩

theorem exists_donor_cluster (ne : ℕ → ℕ)
    (hsum : ∑ k ∈ Finset.range ksub, ne k = ksub)
    (hk : ∃ k, k < ksub ∧ ne k = 0) : ∃ j, j < ksub ∧ 2 ≤ ne j := by
  by_contra h
  push_neg at h
  obtain ⟨k0, hk0, hk00⟩ := hk
  have hlt : ∑ k ∈ Finset.range ksub, ne k
      < ∑ _k ∈ Finset.range ksub, 1 := by
    apply Finset.sum_lt_sum
    · intro i hi
      have := h i (Finset.mem_range.mp hi)
      omega
    · exact ⟨k0, Finset.mem_range.mpr hk0, by omega⟩
  rw [hsum, Finset.sum_const, Finset.card_range, smul_eq_mul, mul_one] at hlt
  omega

theorem findDonor_reaches (u : ℕ → ℚ) (ne : ℕ → ℕ) :
    ∀ fuel m0 pos, (∃ j, m0 ≤ j ∧ j < ksub ∧ 2 ≤ ne j ∧ j - m0 < fuel) →
      (findDonor u ne ksub fuel m0 pos).isSome := by
  intro fuel
  induction fuel with
  | zero =>
    rintro m0 pos ⟨j, _, _, _, hj⟩
    omega
  | succ fuel ih =>
    rintro m0 pos ⟨j, hj0, hjk, hj2, hjf⟩
    rw [findDonor]
    have hzero : u pos * ((ksub : ℚ) - (ksub : ℚ)) = 0 := by
      rw [sub_self, mul_zero]
    split
    · rename_i hcond
      rw [hzero] at hcond
      have hne1 : ne m0 ≤ 1 := by
        by_contra hgt
        push_neg at hgt
        have : (1:ℚ) < (ne m0 : ℚ) := by exact_mod_cast hgt
        linarith
      have hm0j : m0 < j := by
        rcases Nat.lt_or_ge m0 j with h | h
        · exact h
        · have : m0 = j := by omega
          rw [this] at hne1
          omega
      have hmod : (m0 + 1) % ksub = m0 + 1 := Nat.mod_eq_of_lt (by omega)
      rw [hmod]
      exact ih (m0 + 1) (pos + 1) ⟨j, by omega, hjk, hj2, by omega⟩
    · simp

/-- C8 (counterexample to the claim as stated): with `n = 512 > ksub_`,
counts summing to `n` with one empty cluster, and the constant draw
sequence `1/2` (all draws in `[0,1)`), the donor-search loop never exits:
no amount of fuel makes it return. -/
theorem donor_search_nontermination_helper :
    ∀ fuel m pos,
      findDonor (fun _ => (1:ℚ)/2) neCx 512 fuel m pos = none := by
  intro fuel
  induction fuel with
  | zero => intro m pos; rfl
  | succ fuel ih =>
    intro m pos
    rw [findDonor]
    rw [if_pos]
    · exact ih _ _
    · have hle : neCx m ≤ 4 := by
        unfold neCx
        split <;> [omega; skip]
        split <;> omega
      have hcast : (neCx m : ℚ) ≤ 4 := by exact_mod_cast hle
      have hksub : ((ksub : ℕ) : ℚ) = 256 := by norm_num [ksub]
      rw [hksub]
      norm_num
      linarith

theorem donor_search_nontermination_counterexample :
    (∑ k ∈ Finset.range ksub, neCx k = 512) ∧
    (∀ t : ℕ, 0 ≤ (fun _ => (1:ℚ)/2) t ∧ (fun _ => (1:ℚ)/2) t < 1) ∧
    neCx 0 = 0 ∧
    ¬ (∃ fuel, (findDonor (fun _ => (1:ℚ)/2) neCx 512 fuel 0 0).isSome) := by
  refine ⟨by decide, fun t => by norm_num, rfl, ?_⟩
  rintro ⟨fuel, h⟩
  rw [donor_search_nontermination_helper fuel 0 0] at h
  simp at h

/-- C8 (amended): the rejection-sampling donor loop with draws in `[0,1)`
is guaranteed to terminate for every draw sequence only in the boundary
case `n = ksub_` (where the continue-condition degenerates to
`count[m] <= 1` and some cluster with count ≥ 2 must exist, so at most
`ksub_` probes are needed); for `n > ksub_` there are count
configurations and draw sequences on which it never exits
(see the counterexample).  Whenever the loop does exit, the selected
donor's recorded count is at least 2 — a cluster with count ≤ 1 is never
accepted. -/
theorem donor_search_spec (u : ℕ → ℚ) (ne : ℕ → ℕ) (pos : ℕ) :
    ((∑ k ∈ Finset.range ksub, ne k = ksub) → (∃ k, k < ksub ∧ ne k = 0) →
      (findDonor u ne ksub ksub 0 pos).isSome) ∧
    (∀ n fuel m0 m pos', ksub ≤ n → (∀ t, 0 ≤ u t) →
      findDonor u ne n fuel m0 pos = some (m, pos') → 2 ≤ ne m) := by
  constructor
  · intro hsum hempty
    obtain ⟨j, hjk, hj2⟩ := exists_donor_cluster ne hsum hempty
    exact findDonor_reaches u ne ksub 0 pos ⟨j, by omega, hjk, hj2, by omega⟩
  · intro n fuel m0 m pos' hn hu h
    exact findDonor_count u ne n hn hu fuel m0 pos m pos' h

/-- Witness for C8's amended theorem: a terminating concrete search at
`n = ksub_` (counts `neW`, zero draws) whose donor has count 2. -/
theorem donor_search_spec_witness :
    (findDonor (fun _ => (0:ℚ)) neW ksub ksub 0 0).isSome = true ∧
    (∀ m pos', findDonor (fun _ => (0:ℚ)) neW ksub ksub 0 0 = some (m, pos') →
      2 ≤ neW m) :=
  ⟨(donor_search_spec (fun _ => (0:ℚ)) neW 0).1 (by decide) ⟨0, by decide, rfl⟩,
   fun m pos' h =>
     (donor_search_spec (fun _ => (0:ℚ)) neW 0).2 ksub ksub 0 m pos' le_rfl
       (fun t => le_refl 0) h⟩

theorem make_shape (dim dsub seed : ℕ) (eps : ℚ) (niter maxpoints : ℕ)
    (hdim : 0 < dim) (hdsub : 0 < dsub) :
    1 ≤ (ProductQuantizer.make dim dsub seed eps niter maxpoints).nsubq ∧
    0 < (ProductQuantizer.make dim dsub seed eps niter maxpoints).lastdsub ∧
    (ProductQuantizer.make dim dsub seed eps niter maxpoints).lastdsub ≤ dsub ∧
    ((ProductQuantizer.make dim dsub seed eps niter maxpoints).nsubq - 1) * dsub
        + (ProductQuantizer.make dim dsub seed eps niter maxpoints).lastdsub
      = dim := by
  by_cases h : dim % dsub = 0
  · have hdvd : dsub ∣ dim := Nat.dvd_of_mod_eq_zero h
    have hq1 : 1 ≤ dim / dsub := Nat.div_pos (Nat.le_of_dvd hdim hdvd) hdsub
    have hqm : dim / dsub * dsub = dim := Nat.div_mul_cancel hdvd
    have hfield : (ProductQuantizer.make dim dsub seed eps niter maxpoints).nsubq
        = dim / dsub := by simp [ProductQuantizer.make, h]
    have lfield : (ProductQuantizer.make dim dsub seed eps niter maxpoints).lastdsub
        = dsub := by simp [ProductQuantizer.make, h]
    refine ⟨by rw [hfield]; exact hq1, by rw [lfield]; omega,
      by rw [lfield], ?_⟩
    rw [hfield, lfield]
    have hexp : (dim / dsub - 1) * dsub + dsub = (dim / dsub - 1 + 1) * dsub := by
      ring
    rw [hexp, Nat.sub_add_cancel hq1, hqm]
  · have hmod : dim % dsub < dsub := Nat.mod_lt _ hdsub
    have hfield : (ProductQuantizer.make dim dsub seed eps niter maxpoints).nsubq
        = dim / dsub + 1 := by simp [ProductQuantizer.make, h]
    have lfield : (ProductQuantizer.make dim dsub seed eps niter maxpoints).lastdsub
        = dim % dsub := by simp [ProductQuantizer.make, h]
    refine ⟨by rw [hfield]; exact Nat.le_add_left 1 _,
      by rw [lfield]; omega, by rw [lfield]; omega, ?_⟩
    rw [hfield, lfield, Nat.add_sub_cancel, mul_comm]
    exact Nat.div_add_mod dim dsub

theorem layout_addr_lower (pq : PQ) (m i : ℕ) :
    m * ksub * pq.dsub ≤ get_centroids pq m i := by
  unfold get_centroids
  split
  · exact Nat.le_add_right _ _
  · have : (m * ksub + i) * pq.dsub = m * ksub * pq.dsub + i * pq.dsub := by
      ring
    omega

theorem layout_addr_upper_mid (pq : PQ) {m i j : ℕ}
    (hm : m ≠ pq.nsubq - 1) (hi : i < ksub) (hj : j < pq.dsub) :
    get_centroids pq m i + j < (m + 1) * ksub * pq.dsub := by
  unfold get_centroids
  rw [if_neg hm]
  have h2 : (m * ksub + i) * pq.dsub + pq.dsub = (m * ksub + i + 1) * pq.dsub := by
    ring
  have h4 : (m + 1) * ksub = m * ksub + ksub := by ring
  have h3 : (m * ksub + i + 1) * pq.dsub ≤ (m + 1) * ksub * pq.dsub := by
    apply Nat.mul_le_mul_right
    omega
  omega

theorem layout_addr_upper_last (pq : PQ) {i j : ℕ}
    (hi : i < ksub) (hj : j < pq.lastdsub) :
    get_centroids pq (pq.nsubq - 1) i + j
      < (pq.nsubq - 1) * ksub * pq.dsub + ksub * pq.lastdsub := by
  unfold get_centroids
  rw [if_pos rfl]
  have h1 : (i + 1) * pq.lastdsub = i * pq.lastdsub + pq.lastdsub := by ring
  have h2 : (i + 1) * pq.lastdsub ≤ ksub * pq.lastdsub := by
    apply Nat.mul_le_mul_right
    omega
  omega

theorem layout_total (pq : PQ)
    (hInv : (pq.nsubq - 1) * pq.dsub + pq.lastdsub = pq.dim) :
    pq.dim * ksub
      = (pq.nsubq - 1) * ksub * pq.dsub + ksub * pq.lastdsub := by
  rw [← hInv]
  ring

theorem layout_lt (pq : PQ) {m i j m' : ℕ} (i' j' : ℕ)
    (hmm' : m < m') (hm' : m' < pq.nsubq) (hi : i < ksub)
    (hj : j < subWidth pq m) :
    get_centroids pq m i + j < get_centroids pq m' i' + j' := by
  have hmne : m ≠ pq.nsubq - 1 := by omega
  have hjD : j < pq.dsub := by
    unfold subWidth at hj
    rw [if_neg hmne] at hj
    exact hj
  have h1 := layout_addr_upper_mid pq hmne hi hjD
  have h2 := layout_addr_lower pq m' i'
  have h3 : (m + 1) * ksub * pq.dsub ≤ m' * ksub * pq.dsub := by
    apply Nat.mul_le_mul_right
    apply Nat.mul_le_mul_right
    omega
  omega

theorem layout_exists (pq : PQ) (hD : 0 < pq.dsub) (hL : 0 < pq.lastdsub)
    (hN : 1 ≤ pq.nsubq)
    (hInv : (pq.nsubq - 1) * pq.dsub + pq.lastdsub = pq.dim) :
    ∀ p, p < pq.dim * ksub → ∃ m i j,
      (m < pq.nsubq ∧ i < ksub ∧ j < subWidth pq m) ∧
      get_centroids pq m i + j = p := by
  intro p hp
  have hKD : 0 < ksub * pq.dsub := Nat.mul_pos (by decide) hD
  by_cases hB : p < (pq.nsubq - 1) * (ksub * pq.dsub)
  · set A := ksub * pq.dsub with hA
    set m := p / A with hm
    set r := p % A with hr
    have hmlt : m < pq.nsubq - 1 := (Nat.div_lt_iff_lt_mul hKD).mpr hB
    have hmne : m ≠ pq.nsubq - 1 := by omega
    have hrlt : r < A := Nat.mod_lt _ hKD
    have hilt : r / pq.dsub < ksub := (Nat.div_lt_iff_lt_mul hD).mpr hrlt
    refine ⟨m, r / pq.dsub, r % pq.dsub, ⟨by omega, hilt, ?_⟩, ?_⟩
    · unfold subWidth
      rw [if_neg hmne]
      exact Nat.mod_lt _ hD
    · unfold get_centroids
      rw [if_neg hmne]
      have e1 : (m * ksub + r / pq.dsub) * pq.dsub
          = m * A + r / pq.dsub * pq.dsub := by
        rw [hA]
        ring
      have e2 : r / pq.dsub * pq.dsub + r % pq.dsub = r := by
        rw [mul_comm]
        exact Nat.div_add_mod r pq.dsub
      have e3 : m * A + r = p := by
        rw [hm, hr, mul_comm]
        exact Nat.div_add_mod p A
      omega
  · have htot := layout_total pq hInv
    have hassoc : (pq.nsubq - 1) * (ksub * pq.dsub)
        = (pq.nsubq - 1) * ksub * pq.dsub := by ring
    set B := (pq.nsubq - 1) * (ksub * pq.dsub) with hBdef
    set q := p - B with hq
    have hqlt : q < ksub * pq.lastdsub := by omega
    have hilt : q / pq.lastdsub < ksub := (Nat.div_lt_iff_lt_mul hL).mpr hqlt
    refine ⟨pq.nsubq - 1, q / pq.lastdsub, q % pq.lastdsub,
      ⟨by omega, hilt, ?_⟩, ?_⟩
    · unfold subWidth
      rw [if_pos rfl]
      exact Nat.mod_lt _ hL
    · unfold get_centroids
      rw [if_pos rfl]
      have e2 : q / pq.lastdsub * pq.lastdsub + q % pq.lastdsub = q := by
        rw [mul_comm]
        exact Nat.div_add_mod q pq.lastdsub
      omega

theorem layout_unique (pq : PQ) (hD : 0 < pq.dsub) (hL : 0 < pq.lastdsub)
    (hN : 1 ≤ pq.nsubq) :
    ∀ m i j m' i' j',
      (m < pq.nsubq ∧ i < ksub ∧ j < subWidth pq m) →
      (m' < pq.nsubq ∧ i' < ksub ∧ j' < subWidth pq m') →
      get_centroids pq m i + j = get_centroids pq m' i' + j' →
      m = m' ∧ i = i' ∧ j = j' := by
  intro m i j m' i' j' ⟨hm, hi, hj⟩ ⟨hm', hi', hj'⟩ heq
  have hmm : m = m' := by
    rcases lt_trichotomy m m' with h | h | h
    · have := layout_lt pq i' j' h hm' hi hj
      omega
    · exact h
    · have := layout_lt pq i j h hm hi' hj'
      omega
  subst hmm
  by_cases hlast : m = pq.nsubq - 1
  · subst hlast
    have hjL : j < pq.lastdsub := by
      unfold subWidth at hj
      rw [if_pos rfl] at hj
      exact hj
    have hjL' : j' < pq.lastdsub := by
      unfold subWidth at hj'
      rw [if_pos rfl] at hj'
      exact hj'
    have haddr : ∀ i0, get_centroids pq (pq.nsubq - 1) i0
        = (pq.nsubq - 1) * ksub * pq.dsub + i0 * pq.lastdsub := by
      intro i0
      unfold get_centroids
      rw [if_pos rfl]
    rw [haddr i, haddr i'] at heq
    have heq2 : i * pq.lastdsub + j = i' * pq.lastdsub + j' := by omega
    have hii : i = i' := by
      by_contra hne
      exact block_disjoint hne hjL hjL' heq2
    subst hii
    exact ⟨rfl, rfl, by omega⟩
  · have hjD : j < pq.dsub := by
      unfold subWidth at hj
      rw [if_neg hlast] at hj
      exact hj
    have hjD' : j' < pq.dsub := by
      unfold subWidth at hj'
      rw [if_neg hlast] at hj'
      exact hj'
    have haddr : ∀ i0, get_centroids pq m i0 = (m * ksub + i0) * pq.dsub := by
      intro i0
      unfold get_centroids
      rw [if_neg hlast]
    rw [haddr i, haddr i'] at heq
    have hii : m * ksub + i = m * ksub + i' := by
      by_contra hne
      exact block_disjoint hne hjD hjD' heq
    have hii' : i = i' := by omega
    subst hii'
    exact ⟨rfl, rfl, by omega⟩

/-- C1: for every construction with positive `dim` and `dsub` (divisibility
not required, `dsub > dim` allowed): the shape invariant
`(nsubq_-1)*dsub_ + lastdsub_ = dim` holds with `lastdsub_` equal to
`dim % dsub` when that remainder is nonzero and to `dsub` otherwise; the
per-subspace widths sum to `dim`; the centroid table holds `dim * ksub_`
reals; the `const` and mutable `get_centroids` overloads compute identical
addresses; and the blocks they address (width `dsub_` for non-last
subspaces, `lastdsub_` for the last) tile the table densely: every flat
position below `dim * ksub_` belongs to exactly one
`(subspace, centroid, coordinate)` triple. -/
theorem quantizer_shape_and_layout (dim dsub seed : ℕ) (eps : ℚ)
    (niter maxpoints : ℕ) (hdim : 0 < dim) (hdsub : 0 < dsub) :
    ((ProductQuantizer.make dim dsub seed eps niter maxpoints).nsubq - 1) * dsub
        + (ProductQuantizer.make dim dsub seed eps niter maxpoints).lastdsub
        = dim ∧
    (ProductQuantizer.make dim dsub seed eps niter maxpoints).lastdsub
      = (if dim % dsub ≠ 0 then dim % dsub else dsub) ∧
    (∑ m ∈ Finset.range
        (ProductQuantizer.make dim dsub seed eps niter maxpoints).nsubq,
      subWidth (ProductQuantizer.make dim dsub seed eps niter maxpoints) m)
      = dim ∧
    (ProductQuantizer.make dim dsub seed eps niter maxpoints).centroids.length
      = dim * ksub ∧
    (∀ m i, get_centroids (ProductQuantizer.make dim dsub seed eps niter maxpoints) m i
      = get_centroids_mut (ProductQuantizer.make dim dsub seed eps niter maxpoints) m i) ∧
    (∀ p, p < dim * ksub → ∃! t : ℕ × ℕ × ℕ,
      (t.1 < (ProductQuantizer.make dim dsub seed eps niter maxpoints).nsubq ∧
        t.2.1 < ksub ∧
        t.2.2 < subWidth (ProductQuantizer.make dim dsub seed eps niter maxpoints) t.1) ∧
      get_centroids (ProductQuantizer.make dim dsub seed eps niter maxpoints)
        t.1 t.2.1 + t.2.2 = p) := by
  obtain ⟨hN, hL, hLD, hInv⟩ :=
    make_shape dim dsub seed eps niter maxpoints hdim hdsub
  set pq := ProductQuantizer.make dim dsub seed eps niter maxpoints with hpq
  have hDfield : pq.dsub = dsub := rfl
  have hdimfield : pq.dim = dim := rfl
  have hD : 0 < pq.dsub := by rw [hDfield]; exact hdsub
  have hInv' : (pq.nsubq - 1) * pq.dsub + pq.lastdsub = pq.dim := by
    rw [hDfield, hdimfield]; exact hInv
  refine ⟨hInv, ?_, ?_, ?_, fun m i => rfl, fun p hp => ?_⟩
  · by_cases h : dim % dsub = 0
    · simp [hpq, ProductQuantizer.make, h]
    · simp [hpq, ProductQuantizer.make, h]
  · obtain ⟨N', hN'⟩ : ∃ N', pq.nsubq = N' + 1 := ⟨pq.nsubq - 1, by omega⟩
    rw [hN', Finset.sum_range_succ]
    have hlastw : subWidth pq N' = pq.lastdsub := by
      unfold subWidth
      rw [if_pos (by omega)]
    have hmidw : ∀ m ∈ Finset.range N', subWidth pq m = pq.dsub := by
      intro m hm
      unfold subWidth
      rw [if_neg (by have := Finset.mem_range.mp hm; omega)]
    rw [hlastw, Finset.sum_congr rfl hmidw, Finset.sum_const,
      Finset.card_range, smul_eq_mul]
    have hN'eq : N' = pq.nsubq - 1 := by omega
    rw [hN'eq, hDfield]
    exact hInv
  · show (List.replicate (dim * ksub) (0:ℚ)).length = dim * ksub
    exact List.length_replicate _ _
  · have hp' : p < pq.dim * ksub := by rw [hdimfield]; exact hp
    obtain ⟨m, i, j, hvalid, haddr⟩ :=
      layout_exists pq hD hL hN hInv' p hp'
    refine ⟨(m, i, j), ⟨hvalid, haddr⟩, ?_⟩
    rintro ⟨m', i', j'⟩ ⟨hvalid', haddr'⟩
    obtain ⟨e1, e2, e3⟩ := layout_unique pq hD hL hN m' i' j' m i j hvalid'
      hvalid (by rw [haddr', haddr])
    simp [e1, e2, e3]

/-- Witness for C1 at `dim = 5`, `dsub = 2` (non-divisible:
`nsubq_ = 3`, `lastdsub_ = 1`). -/
theorem quantizer_shape_and_layout_witness :
    ((ProductQuantizer.make 5 2 0 0 0 0).nsubq - 1) * 2
        + (ProductQuantizer.make 5 2 0 0 0 0).lastdsub = 5 ∧
    (ProductQuantizer.make 5 2 0 0 0 0).centroids.length = 5 * ksub :=
  ⟨(quantizer_shape_and_layout 5 2 0 0 0 0 (by decide) (by decide)).1,
   (quantizer_shape_and_layout 5 2 0 0 0 0 (by decide) (by decide)).2.2.2.1⟩
